import Mathlib

/-!
# Verification of the c-blosc2 core fragment

A shallow embedding, in Lean 4, of the block-compression core fragment of the
c-blosc2 repository: the `split_block` heuristic from `blosc/stune.h`, the
environment-driven thread-count selection from `bench/sum_openmp.c`, and —
modelled from the specification where the implementation files are not part of
the fragment — the generic shuffle transform, the chunk compression pipeline
with its incompressible-block fallback, the multi-threaded block decompressor,
and the super-chunk container.

Machine integers are modelled as `Int`/`Nat` (the values involved stay far from
the 32/64-bit overflow boundaries in every claim considered); C's truncating
integer division is `Int.tdiv`; byte buffers are `List Nat`; fallible
operations return `Option`.
-/

set_option autoImplicit false

namespace CBlosc2

/-! ## Constants from blosc.h / context.h (values as defined in the repository) -/

def BLOSC_BLOSCLZ : Int := 0
def BLOSC_LZ4 : Int := 1
def BLOSC_LZ4HC : Int := 2
def BLOSC_SNAPPY : Int := 3
def BLOSC_ZLIB : Int := 4
def BLOSC_ZSTD : Int := 5

def BLOSC_ALWAYS_SPLIT : Int := 1
def BLOSC_NEVER_SPLIT : Int := 2
def BLOSC_AUTO_SPLIT : Int := 3
def BLOSC_FORWARD_COMPAT_SPLIT : Int := 4

def BLOSC_DOSHUFFLE : Nat := 1

/-- `MAX_STREAMS` from `blosc/stune.h`: the maximum number of compressed data
streams in a block for compression. -/
def MAX_STREAMS : Int := 16

/-- `BLOSC_MIN_BUFFERSIZE` from the repository headers (the spec's
`MIN_BUFFER_SIZE`): minimum buffer size to be compressed. -/
def BLOSC_MIN_BUFFERSIZE : Int := 128

/-- The fields of `blosc2_context` read by `split_block`. -/
structure Blosc2Context where
  splitmode : Int
  compcode : Int
  filter_flags : Nat

/-- Embedding of `split_block` from `blosc/stune.h`: conditions for splitting a
block before compressing with a codec.  Returns an `Int` (1 or 0) like the C
function.  The C switch sends `BLOSC_ALWAYS_SPLIT` to 1, `BLOSC_NEVER_SPLIT`
to 0, and every other mode (including the `default:` warning case) to the
common codec/typesize/blocksize condition.  The local `shuffle` variable of the
C code is read but unused, and is kept here as a dead binding. -/
def split_block (context : Blosc2Context) (typesize blocksize : Int)
    (extended_header : Bool) : Int :=
  if context.splitmode = BLOSC_ALWAYS_SPLIT then 1
  else if context.splitmode = BLOSC_NEVER_SPLIT then 0
  else
    let compcode := context.compcode
    let _shuffle : Bool := context.filter_flags &&& BLOSC_DOSHUFFLE ≠ 0
    if ((compcode = BLOSC_BLOSCLZ) ∨
        (compcode = BLOSC_LZ4) ∨
        (¬extended_header ∧ compcode = BLOSC_LZ4HC) ∨
        (¬extended_header ∧ compcode = BLOSC_ZLIB) ∨
        (compcode = BLOSC_SNAPPY)) ∧
       (typesize ≤ MAX_STREAMS) ∧
       (Int.tdiv blocksize typesize ≥ BLOSC_MIN_BUFFERSIZE) then 1 else 0

/-- Modelled from the spec: the set of codecs "known to benefit from
splitting" — the fast general-purpose codecs split well, and the legacy codecs
split only when an extended header is unavailable (the spec describes this set
in prose; it is instantiated here with the codecs listed in `blosc/stune.h`). -/
def codec_prefers_split (codec_id : Int) (extended_header : Bool) : Prop :=
  codec_id = BLOSC_BLOSCLZ ∨ codec_id = BLOSC_LZ4 ∨
  (¬extended_header ∧ codec_id = BLOSC_LZ4HC) ∨
  (¬extended_header ∧ codec_id = BLOSC_ZLIB) ∨
  codec_id = BLOSC_SNAPPY

instance (codec_id : Int) (extended_header : Bool) :
    Decidable (codec_prefers_split codec_id extended_header) := by
  unfold codec_prefers_split; infer_instance

/-- Modelled from the spec: the reference split decision `should_split`:
`Never` → false; `Always` → true; `Auto`/`ForwardCompat` → true iff the codec
benefits from splitting AND `element_size ≤ MAX_STREAMS` AND
`block_size / element_size ≥ MIN_BUFFER_SIZE`. -/
def should_split (codec_id element_size block_size split_mode : Int)
    (extended_header : Bool) : Bool :=
  if split_mode = BLOSC_NEVER_SPLIT then false
  else if split_mode = BLOSC_ALWAYS_SPLIT then true
  else
    decide (codec_prefers_split codec_id extended_header) &&
    decide (element_size ≤ MAX_STREAMS) &&
    decide (Int.tdiv block_size element_size ≥ BLOSC_MIN_BUFFERSIZE)

/-- Claim C1: the split decision `split_block` equals the reference function
`should_split` for every codec, every `element_size ≥ 1` and every
`block_size` (`Never` → false, `Always` → true, `Auto`/`ForwardCompat` → the
codec-set/`MAX_STREAMS`/`MIN_BUFFER_SIZE` condition); in particular it returns
true for (fast-generic, 8, 4096, Auto), false for the same inputs with mode
Never, and false for (fast-generic, 32, 4096, Auto). -/
theorem split_block_matches_reference :
    (∀ (ctx : Blosc2Context) (typesize blocksize : Int) (eh : Bool),
        1 ≤ typesize →
        split_block ctx typesize blocksize eh =
          (if should_split ctx.compcode typesize blocksize ctx.splitmode eh
           then 1 else 0)) ∧
    split_block ⟨BLOSC_AUTO_SPLIT, BLOSC_BLOSCLZ, 1⟩ 8 4096 true = 1 ∧
    split_block ⟨BLOSC_NEVER_SPLIT, BLOSC_BLOSCLZ, 1⟩ 8 4096 true = 0 ∧
    split_block ⟨BLOSC_AUTO_SPLIT, BLOSC_BLOSCLZ, 1⟩ 32 4096 true = 0 := by
  refine ⟨?_, by decide, by decide, by decide⟩
  intro ctx ts bs eh _h
  unfold split_block should_split
  by_cases hA : ctx.splitmode = BLOSC_ALWAYS_SPLIT
  · have hN : ¬ctx.splitmode = BLOSC_NEVER_SPLIT := by rw [hA]; decide
    simp [hA, hN]
    decide
  · by_cases hN : ctx.splitmode = BLOSC_NEVER_SPLIT
    · simp [hA, hN]
      decide
    · simp only [hA, hN, if_false, if_neg]
      refine if_congr ?_ rfl rfl
      simp [Bool.and_eq_true, decide_eq_true_eq, codec_prefers_split, and_assoc]

/-- Claim C1 witness: the universally quantified part of
`split_block_matches_reference` evaluated at a concrete context. -/
theorem split_block_matches_reference_witness :
    (1 : Int) ≤ 8 ∧
    split_block ⟨BLOSC_FORWARD_COMPAT_SPLIT, BLOSC_LZ4, 1⟩ 8 4096 false =
      (if should_split BLOSC_LZ4 8 4096 BLOSC_FORWARD_COMPAT_SPLIT false
       then 1 else 0) :=
  ⟨by decide,
   split_block_matches_reference.1 ⟨BLOSC_FORWARD_COMPAT_SPLIT, BLOSC_LZ4, 1⟩
     8 4096 false (by decide)⟩

/-- Claim C9: `split_block` is independent of `filter_flags`: two contexts that
agree on `splitmode` and `compcode` (with the same `element_size`,
`block_size` and `extended_header` arguments) produce the same decision, for
every pair of `filter_flags` values. -/
theorem split_block_independent_of_filter_flags
    (c1 c2 : Blosc2Context) (typesize blocksize : Int) (eh : Bool)
    (hs : c1.splitmode = c2.splitmode) (hc : c1.compcode = c2.compcode) :
    split_block c1 typesize blocksize eh = split_block c2 typesize blocksize eh := by
  cases c1; cases c2
  simp only at hs hc
  simp [split_block, hs, hc]

/-- Claim C9 witness: two contexts differing only in `filter_flags`. -/
theorem split_block_independent_of_filter_flags_witness :
    (⟨BLOSC_AUTO_SPLIT, BLOSC_BLOSCLZ, 1⟩ : Blosc2Context).splitmode =
      (⟨BLOSC_AUTO_SPLIT, BLOSC_BLOSCLZ, 0⟩ : Blosc2Context).splitmode ∧
    (⟨BLOSC_AUTO_SPLIT, BLOSC_BLOSCLZ, 1⟩ : Blosc2Context).compcode =
      (⟨BLOSC_AUTO_SPLIT, BLOSC_BLOSCLZ, 0⟩ : Blosc2Context).compcode ∧
    split_block ⟨BLOSC_AUTO_SPLIT, BLOSC_BLOSCLZ, 1⟩ 8 4096 true =
      split_block ⟨BLOSC_AUTO_SPLIT, BLOSC_BLOSCLZ, 0⟩ 8 4096 true :=
  ⟨rfl, rfl,
   split_block_independent_of_filter_flags
     ⟨BLOSC_AUTO_SPLIT, BLOSC_BLOSCLZ, 1⟩ ⟨BLOSC_AUTO_SPLIT, BLOSC_BLOSCLZ, 0⟩
     8 4096 true rfl rfl⟩

/-- Claim C10: for a context whose `splitmode` is none of Always, Never, Auto
or ForwardCompat, `split_block` does not fail or return a distinguished error:
it returns exactly the decision that ForwardCompat mode would return for the
same codec, element size, block size and extended-header setting. -/
theorem split_block_default_mode_is_forward_compat
    (ctx : Blosc2Context) (typesize blocksize : Int) (eh : Bool)
    (h1 : ctx.splitmode ≠ BLOSC_ALWAYS_SPLIT)
    (h2 : ctx.splitmode ≠ BLOSC_NEVER_SPLIT)
    (_h3 : ctx.splitmode ≠ BLOSC_AUTO_SPLIT)
    (_h4 : ctx.splitmode ≠ BLOSC_FORWARD_COMPAT_SPLIT) :
    split_block ctx typesize blocksize eh =
      split_block ⟨BLOSC_FORWARD_COMPAT_SPLIT, ctx.compcode, ctx.filter_flags⟩
        typesize blocksize eh := by
  have e1 : BLOSC_FORWARD_COMPAT_SPLIT ≠ BLOSC_ALWAYS_SPLIT := by decide
  have e2 : BLOSC_FORWARD_COMPAT_SPLIT ≠ BLOSC_NEVER_SPLIT := by decide
  simp [split_block, h1, h2, e1, e2]

/-- Claim C10 witness: an unrecognized split mode (99) behaves like
ForwardCompat. -/
theorem split_block_default_mode_is_forward_compat_witness :
    (⟨99, BLOSC_BLOSCLZ, 1⟩ : Blosc2Context).splitmode ≠ BLOSC_ALWAYS_SPLIT ∧
    (⟨99, BLOSC_BLOSCLZ, 1⟩ : Blosc2Context).splitmode ≠ BLOSC_NEVER_SPLIT ∧
    (⟨99, BLOSC_BLOSCLZ, 1⟩ : Blosc2Context).splitmode ≠ BLOSC_AUTO_SPLIT ∧
    (⟨99, BLOSC_BLOSCLZ, 1⟩ : Blosc2Context).splitmode ≠ BLOSC_FORWARD_COMPAT_SPLIT ∧
    split_block ⟨99, BLOSC_BLOSCLZ, 1⟩ 8 4096 true =
      split_block ⟨BLOSC_FORWARD_COMPAT_SPLIT, BLOSC_BLOSCLZ, 1⟩ 8 4096 true :=
  ⟨by decide, by decide, by decide, by decide,
   split_block_default_mode_is_forward_compat ⟨99, BLOSC_BLOSCLZ, 1⟩ 8 4096 true
     (by decide) (by decide) (by decide) (by decide)⟩

/-! ## Environment-driven thread count (bench/sum_openmp.c, lines 167–175) -/

/-- `NTHREADS` from `bench/sum_openmp.c`: the hardcoded default thread count. -/
def NTHREADS : Nat := 8

/-- `EINVAL` as defined on Linux (the benchmark compares `strtol`'s return
value against it). -/
def EINVAL : Int := 22

def isSpaceChar (c : Char) : Bool := c == ' ' || c == '\t' || c == '\n'

def isDigitCh (c : Char) : Bool := decide ('0' ≤ c) && decide (c ≤ '9')

def natOfDigits (cs : List Char) : Nat :=
  cs.foldl (fun acc c => acc * 10 + (c.toNat - ('0').toNat)) 0

/-- Modelled from the spec: libc `strtol(s, NULL, 10)` as used by the
benchmark — skip leading whitespace, accept an optional sign, convert the
following run of decimal digits, and return 0 when there are no digits. -/
def strtol10 (s : List Char) : Int :=
  let s1 := s.dropWhile isSpaceChar
  match s1 with
  | '-' :: rest => -(natOfDigits (rest.takeWhile isDigitCh) : Int)
  | '+' :: rest => (natOfDigits (rest.takeWhile isDigitCh) : Int)
  | _ => (natOfDigits (s1.takeWhile isDigitCh) : Int)

/-- Embedding of `bench/sum_openmp.c` lines 167–175: `nthreads` starts at
`NTHREADS`; when the `OMP_NUM_THREADS` environment variable is present its
value is run through `strtol` and adopted whenever
`value != EINVAL && value >= 0`. -/
def omp_num_threads (envvar : Option (List Char)) : Int :=
  match envvar with
  | none => (NTHREADS : Int)
  | some s =>
      let value := strtol10 s
      if value ≠ EINVAL ∧ value ≥ 0 then value else (NTHREADS : Int)

/-- Claim C4 (refuted by the code): for the non-numeric environment string
"abc", `strtol` returns 0, which passes the `value != EINVAL && value >= 0`
check, so the benchmark adopts a thread count of 0 instead of falling back to
the default 8 (it then divides the chunk count by this 0).  Moreover the valid
numeric string "22" is rejected (22 = EINVAL) and falls back to 8 even though
it parses as a legal thread count. -/
theorem omp_num_threads_nonnumeric_is_zero :
    omp_num_threads (some ['a', 'b', 'c']) = 0 ∧
    omp_num_threads (some ['2', '2']) = (NTHREADS : Int) ∧
    omp_num_threads none = (NTHREADS : Int) ∧
    (0 : Int) ≠ (NTHREADS : Int) := by
  refine ⟨?_, ?_, rfl, by decide⟩ <;> decide

/-! ## Generic shuffle transform

Modelled from the spec (§4.1): the implementation file `shuffle-generic.h`
is not part of the fragment — only its round-trip test is — so the transform
is modelled from the specification's words: reinterpret `src` as
`length/element_size` elements of `element_size` bytes and write byte `k` of
every element contiguously, for each `k`; the tail that does not fill a whole
element is copied through unchanged. -/

/-- Modelled from the spec: `shuffle(element_size, buffer_size, src)`.
Output position `k * nelem + i` receives byte `k` of element `i`, i.e. input
position `i * element_size + k`; positions past `nelem * element_size` are
copied unchanged. -/
def shuffle_generic (typesize : Nat) (src : List Nat) : List Nat :=
  let nelem := src.length / typesize
  (List.range src.length).map fun j =>
    if j < nelem * typesize then src.getD ((j % nelem) * typesize + j / nelem) 0
    else src.getD j 0

/-- Modelled from the spec: `unshuffle(element_size, buffer_size, src)`, the
inverse transpose: output position `i * element_size + k` receives input
position `k * nelem + i`. -/
def unshuffle_generic (typesize : Nat) (src : List Nat) : List Nat :=
  let nelem := src.length / typesize
  (List.range src.length).map fun j =>
    if j < nelem * typesize then src.getD ((j % typesize) * nelem + j / typesize) 0
    else src.getD j 0

@[simp] theorem length_shuffle_generic (typesize : Nat) (src : List Nat) :
    (shuffle_generic typesize src).length = src.length := by
  simp [shuffle_generic]

@[simp] theorem length_unshuffle_generic (typesize : Nat) (src : List Nat) :
    (unshuffle_generic typesize src).length = src.length := by
  simp [unshuffle_generic]

theorem shuffle_generic_getD (typesize : Nat) (src : List Nat) (k : Nat)
    (hk : k < src.length) :
    (shuffle_generic typesize src).getD k 0 =
      if k < src.length / typesize * typesize then
        src.getD ((k % (src.length / typesize)) * typesize +
                  k / (src.length / typesize)) 0
      else src.getD k 0 := by
  rw [List.getD_eq_getElem _ _ (by simpa using hk)]
  simp [shuffle_generic]

/-- The shuffle/unshuffle round trip, proved for every element size and every
buffer (the tail-copy policy makes it hold even off multiples). -/
theorem unshuffle_generic_shuffle_generic (ts : Nat) (x : List Nat) :
    unshuffle_generic ts (shuffle_generic ts x) = x := by
  apply List.ext_getElem
  · simp
  · intro j hj hjx
    have hlen : (shuffle_generic ts x).length = x.length := by simp
    set n := x.length with hn
    set ne := n / ts with hne
    have hjn : j < n := hjx
    simp only [unshuffle_generic, List.getElem_map, List.getElem_range,
      hlen, ← hne]
    by_cases hsplit : j < ne * ts
    · -- inside the transposed region
      have hts : 0 < ts := by
        rcases Nat.eq_zero_or_pos ts with h0 | h1
        · exfalso; rw [h0] at hsplit; simp at hsplit
        · exact h1
      have hnepos : 0 < ne := by
        rcases Nat.eq_zero_or_pos ne with h0 | h1
        · exfalso; rw [h0] at hsplit; simp at hsplit
        · exact h1
      have hdiv : j / ts < ne := Nat.div_lt_of_lt_mul (by rw [Nat.mul_comm]; exact hsplit)
      have hmod : j % ts < ts := Nat.mod_lt _ hts
      have hmlt : (j % ts) * ne + j / ts < ts * ne := by
        calc (j % ts) * ne + j / ts < (j % ts) * ne + ne :=
              Nat.add_lt_add_left hdiv _
          _ = ((j % ts) + 1) * ne := by ring
          _ ≤ ts * ne := Nat.mul_le_mul_right _ (by omega)
      have hmn : (j % ts) * ne + j / ts < n := by
        calc (j % ts) * ne + j / ts < ts * ne := hmlt
          _ = ne * ts := Nat.mul_comm _ _
          _ ≤ n := by rw [hne]; exact Nat.div_mul_le_self n ts
      rw [if_pos hsplit, shuffle_generic_getD ts x _ hmn, ← hn, ← hne,
        if_pos (by rw [Nat.mul_comm ts ne] at hmlt; exact hmlt)]
      have e1 : ((j % ts) * ne + j / ts) % ne = j / ts := by
        rw [Nat.mul_comm (j % ts) ne, Nat.mul_add_mod, Nat.mod_eq_of_lt hdiv]
      have e2 : ((j % ts) * ne + j / ts) / ne = j % ts := by
        rw [Nat.mul_comm (j % ts) ne, Nat.mul_add_div hnepos,
          Nat.div_eq_of_lt hdiv, Nat.add_zero]
      rw [e1, e2]
      have e3 : j / ts * ts + j % ts = j := by
        rw [Nat.mul_comm]; exact Nat.div_add_mod j ts
      rw [e3, List.getD_eq_getElem _ _ hjx]
    · -- in the copied tail
      rw [if_neg hsplit, shuffle_generic_getD ts x _ hjn, ← hn, ← hne,
        if_neg hsplit, List.getD_eq_getElem _ _ hjx]

/-- The element-size-1 shuffle is the identity. -/
theorem shuffle_generic_one (x : List Nat) : shuffle_generic 1 x = x := by
  apply List.ext_getElem
  · simp
  · intro j hj hjx
    simp only [shuffle_generic, List.getElem_map, List.getElem_range]
    have h1 : j < x.length / 1 * 1 := by simpa using hjx
    rw [if_pos h1]
    have : j % (x.length / 1) = j := by simpa using Nat.mod_eq_of_lt hjx
    rw [Nat.div_one] at h1 ⊢
    rw [Nat.mod_eq_of_lt (by simpa using hjx), Nat.mul_one,
      Nat.div_eq_of_lt (by simpa using hjx), Nat.add_zero,
      List.getD_eq_getElem _ _ hjx]

/-- Claim C2: for every element size in [1,64] and every buffer whose length
is a multiple of the element size (length 0 included),
`unshuffle(shuffle(x)) = x`; and for element size 1 the shuffle transform is
the identity.  Both transforms are pure Lean functions of their inputs. -/
theorem shuffle_roundtrip :
    (∀ (element_size : Nat) (x : List Nat),
        1 ≤ element_size → element_size ≤ 64 →
        element_size ∣ x.length →
        unshuffle_generic element_size (shuffle_generic element_size x) = x) ∧
    (∀ x : List Nat, shuffle_generic 1 x = x) :=
  ⟨fun es x _ _ _ => unshuffle_generic_shuffle_generic es x,
   shuffle_generic_one⟩

/-- Claim C2 witness: the round trip evaluated at element size 2 on a concrete
six-byte buffer. -/
theorem shuffle_roundtrip_witness :
    (1 ≤ 2 ∧ 2 ≤ 64 ∧ 2 ∣ ([3, 1, 4, 1, 5, 9] : List Nat).length) ∧
    unshuffle_generic 2 (shuffle_generic 2 [3, 1, 4, 1, 5, 9]) =
      [3, 1, 4, 1, 5, 9] :=
  ⟨⟨by decide, by decide, by decide⟩,
   shuffle_roundtrip.1 2 [3, 1, 4, 1, 5, 9] (by decide) (by decide) (by decide)⟩

/-! ## Chunk compression pipeline

Modelled from the spec: the compression context, block executor and chunk
codec (`blosc2_compress_ctx`/`blosc2_decompress_ctx` and the blosc2 chunk
format) are not part of the fragment — only their callers are — so the
pipeline is modelled from spec §4.2–§4.6: a chunk is cut into blocks of the
chosen block size, each block is filtered (shuffle), optionally split into
typesize-lane streams, and each stream is handed to an opaque backend codec;
a stream the codec refuses (or fails to shrink) is stored raw with a
per-stream flag checked before the codec is invoked on decompression. -/

/-- Modelled from the spec (§4.2 Codec Strategy): an opaque backend codec.
`comp` returns `none` when the codec refuses to compress (output would exceed
input); `decomp` takes the expected decompressed size and returns `none` on
corrupt data. -/
structure Codec where
  comp : List Nat → Option (List Nat)
  decomp : List Nat → Nat → Option (List Nat)

/-- A lawful codec decompresses its own output back to the original input
when given the original length as the expected size. -/
def Codec.Lawful (c : Codec) : Prop :=
  ∀ x y, c.comp x = some y → c.decomp y x.length = some x

/-- The trivially lawful codec that refuses every input (every stream is then
stored raw). -/
def noneCodec : Codec := ⟨fun _ => none, fun _ _ => none⟩

theorem noneCodec_lawful : noneCodec.Lawful := fun _ _ h => Option.noConfusion h

/-- The per-operation compression parameters the pipeline reads
(spec §3 CompressionParams). -/
structure CParams where
  typesize : Nat
  blocksize : Nat
  doShuffle : Bool

/-- The filter step of the compression pipeline: shuffle when enabled. -/
def applyFilter (p : CParams) (b : List Nat) : List Nat :=
  if p.doShuffle then shuffle_generic p.typesize b else b

/-- The inverse filter step of the decompression pipeline. -/
def removeFilter (p : CParams) (b : List Nat) : List Nat :=
  if p.doShuffle then unshuffle_generic p.typesize b else b

theorem removeFilter_applyFilter (p : CParams) (b : List Nat) :
    removeFilter p (applyFilter p b) = b := by
  unfold removeFilter applyFilter
  split
  · exact unshuffle_generic_shuffle_generic _ _
  · rfl

@[simp] theorem length_applyFilter (p : CParams) (b : List Nat) :
    (applyFilter p b).length = b.length := by
  unfold applyFilter; split <;> simp

/-- One stored stream of a block: the per-stream raw flag, the stored payload,
and the uncompressed stream length recorded in the block table. -/
structure StoredStream where
  raw : Bool
  payload : List Nat
  ulen : Nat

/-- Modelled from the spec (§4.2, §7): compress one stream.  When the codec
refuses (`none`) or fails to shrink the data, the stream is stored raw —
payload equal to the uncompressed bytes — with the raw flag set; this is not
an error. -/
def compressStream (c : Codec) (s : List Nat) : StoredStream :=
  match c.comp s with
  | some out => if out.length < s.length then ⟨false, out, s.length⟩ else ⟨true, s, s.length⟩
  | none => ⟨true, s, s.length⟩

/-- Modelled from the spec (§4.6): decompress one stream, checking the raw
flag before invoking the codec. -/
def decompressStream (c : Codec) (st : StoredStream) : Option (List Nat) :=
  if st.raw then (if st.payload.length = st.ulen then some st.payload else none)
  else c.decomp st.payload st.ulen

theorem decompressStream_compressStream (c : Codec) (hc : c.Lawful)
    (s : List Nat) : decompressStream c (compressStream c s) = some s := by
  unfold compressStream decompressStream
  cases h : c.comp s with
  | none => simp
  | some out =>
      by_cases hlt : out.length < s.length
      · simp [hlt, hc s out h]
      · simp [hlt]

/-- Cut a buffer into consecutive blocks of `bs` bytes (the last one may be
shorter).  A zero block size degenerates to a single block. -/
def chunkBlocks (bs : Nat) (l : List Nat) : List (List Nat) :=
  if _h0 : l.length = 0 then []
  else if _hbs : bs = 0 then [l]
  else l.take bs :: chunkBlocks bs (l.drop bs)
termination_by l.length
decreasing_by simp; omega

theorem chunkBlocks_flatten_aux (bs : Nat) :
    ∀ (n : Nat) (l : List Nat), l.length ≤ n → (chunkBlocks bs l).flatten = l := by
  intro n
  induction n with
  | zero =>
      intro l hl
      have : l = [] := List.eq_nil_of_length_eq_zero (by omega)
      rw [this, chunkBlocks]
      simp
  | succ m ih =>
      intro l hl
      rw [chunkBlocks]
      by_cases h0 : l.length = 0
      · simp [h0, List.eq_nil_of_length_eq_zero h0]
      · by_cases hbs : bs = 0
        · simp [h0, hbs]
        · have hrec : (l.drop bs).length ≤ m := by
            rw [List.length_drop]; omega
          simp only [h0, hbs, dif_neg, not_false_iff]
          rw [List.flatten_cons, ih _ hrec, List.take_append_drop]

theorem chunkBlocks_flatten (bs : Nat) (l : List Nat) :
    (chunkBlocks bs l).flatten = l :=
  chunkBlocks_flatten_aux bs l.length l (Nat.le_refl _)

/-- Modelled from the spec (§3 Block): the streams of one filtered block:
when split is enabled the block is cut into typesize-aligned lanes (each of
`block_length / typesize` bytes, contiguous after the shuffle transpose);
otherwise the whole block is a single stream. -/
def blockStreams (ts : Nat) (split : Bool) (fb : List Nat) : List (List Nat) :=
  if split then chunkBlocks (fb.length / ts) fb else [fb]

theorem blockStreams_flatten (ts : Nat) (split : Bool) (fb : List Nat) :
    (blockStreams ts split fb).flatten = fb := by
  unfold blockStreams
  split
  · exact chunkBlocks_flatten _ _
  · simp

/-- Sequence a list of optional results, failing when any entry failed (the
whole call reports failure; no silent partial result). -/
def seqOpt {α : Type} : List (Option α) → Option (List α)
  | [] => some []
  | o :: rest => o.bind fun a => (seqOpt rest).map fun l => a :: l

theorem seqOpt_map_some {α β : Type} (f : α → Option β) (g : α → β)
    (l : List α) (h : ∀ a ∈ l, f a = some (g a)) :
    seqOpt (l.map f) = some (l.map g) := by
  induction l with
  | nil => rfl
  | cons a t ih =>
      have ha : f a = some (g a) := h a (by simp)
      have ht := ih (fun x hx => h x (by simp [hx]))
      simp [seqOpt, ha, ht]

/-- Compress one block: filter, split into streams, compress each stream. -/
def compressBlock (c : Codec) (p : CParams) (split : Bool) (b : List Nat) :
    List StoredStream :=
  (blockStreams p.typesize split (applyFilter p b)).map (compressStream c)

/-- Decompress one block: decompress each stream (checking the raw flags),
reassemble, unfilter.  Fails (`none`) when any stream fails. -/
def decompressBlock (c : Codec) (p : CParams) (sts : List StoredStream) :
    Option (List Nat) :=
  match seqOpt (sts.map (decompressStream c)) with
  | some parts => some (removeFilter p parts.flatten)
  | none => none

theorem decompressBlock_compressBlock (c : Codec) (hc : c.Lawful)
    (p : CParams) (split : Bool) (b : List Nat) :
    decompressBlock c p (compressBlock c p split b) = some b := by
  unfold decompressBlock compressBlock
  rw [List.map_map,
    seqOpt_map_some _ id _
      (fun s _ => by simpa using decompressStream_compressStream c hc s)]
  simp [blockStreams_flatten, removeFilter_applyFilter]

/-- Modelled from the spec (§3, §4.6): one self-describing compressed chunk —
header fields plus the per-block stored streams. -/
structure Chunk where
  typesize : Nat
  blocksize : Nat
  doShuffle : Bool
  split : Bool
  nbytes : Nat
  blocks : List (List StoredStream)

def Chunk.params (ch : Chunk) : CParams := ⟨ch.typesize, ch.blocksize, ch.doShuffle⟩

/-- Modelled from the spec (§4.4–§4.6): `compress_chunk` — cut the source
into blocks, compress each block, and record the header metadata.  `split` is
the outcome of the split decision (`split_block`) for the bound parameters. -/
def compress_chunk (c : Codec) (p : CParams) (split : Bool) (src : List Nat) :
    Chunk :=
  { typesize := p.typesize, blocksize := p.blocksize, doShuffle := p.doShuffle,
    split := split, nbytes := src.length,
    blocks := (chunkBlocks p.blocksize src).map (compressBlock c p split) }

/-- Modelled from the spec (§4.4–§4.6): `decompress_chunk` — decompress every
block and concatenate in block order; fail when any block fails. -/
def decompress_chunk (c : Codec) (ch : Chunk) : Option (List Nat) :=
  match seqOpt (ch.blocks.map (decompressBlock c ch.params)) with
  | some parts => some parts.flatten
  | none => none

/-- Claim C3: chunk-level round trip — for every input buffer, every element
size, every (lawful) codec variant and both outcomes of every split mode,
decompressing the result of compressing the buffer yields exactly the
buffer.  Sizes 0, 1, 4000 and 1000000 and element sizes 1, 4, 8 are instances
of the universally quantified statement. -/
theorem chunk_roundtrip (c : Codec) (hc : c.Lawful) (p : CParams)
    (split : Bool) (src : List Nat) :
    decompress_chunk c (compress_chunk c p split src) = some src := by
  unfold decompress_chunk compress_chunk
  simp only [List.map_map]
  rw [seqOpt_map_some _ id _
      (fun b _ => by simpa using decompressBlock_compressBlock c hc p split b)]
  simp [chunkBlocks_flatten]

/-- Claim C3 witness: the round trip evaluated with a concrete codec on a
concrete nine-byte buffer with element size 4, block size 4, shuffle on and
split on. -/
theorem chunk_roundtrip_witness :
    noneCodec.Lawful ∧
    decompress_chunk noneCodec
      (compress_chunk noneCodec ⟨4, 4, true⟩ true [9, 8, 7, 6, 5, 4, 3, 2, 1]) =
      some [9, 8, 7, 6, 5, 4, 3, 2, 1] :=
  ⟨fun _ _ h => Option.noConfusion h,
   chunk_roundtrip noneCodec (fun _ _ h => Option.noConfusion h) ⟨4, 4, true⟩ true
    [9, 8, 7, 6, 5, 4, 3, 2, 1]⟩

/-- Claim C8: when the codec refuses to compress a stream (returns `none`),
the compress operation does not fail: the stream is stored raw, with payload
length equal to its uncompressed size and the raw flag set, and decompression
checks the flag before invoking the codec — the result is the stored bytes,
identical under every codec, and no error surfaces. -/
theorem incompressible_stream_stored_raw (c : Codec) (s : List Nat)
    (h : c.comp s = none) :
    compressStream c s = ⟨true, s, s.length⟩ ∧
    (compressStream c s).payload.length = s.length ∧
    decompressStream c (compressStream c s) = some s ∧
    (∀ c' : Codec, decompressStream c' (compressStream c s) = some s) := by
  have hcs : compressStream c s = ⟨true, s, s.length⟩ := by
    unfold compressStream; rw [h]
  refine ⟨hcs, by rw [hcs], ?_, ?_⟩
  · rw [hcs]; unfold decompressStream; simp
  · intro c'; rw [hcs]; unfold decompressStream; simp

/-- Claim C8 witness: the always-refusing codec on a concrete stream. -/
theorem incompressible_stream_stored_raw_witness :
    noneCodec.comp [7, 7, 7] = none ∧
    compressStream noneCodec [7, 7, 7] =
      ⟨true, [7, 7, 7], ([7, 7, 7] : List Nat).length⟩ ∧
    decompressStream noneCodec (compressStream noneCodec [7, 7, 7]) =
      some [7, 7, 7] :=
  ⟨rfl,
   (incompressible_stream_stored_raw noneCodec [7, 7, 7] rfl).1,
   (incompressible_stream_stored_raw noneCodec [7, 7, 7] rfl).2.2.1⟩

/-! ## Super-chunk container

Modelled from the spec (§4.7): an append-only ordered sequence of compressed
chunks with incrementally maintained aggregate totals `nbytes`/`cbytes`.
Operations are modelled as explicit state passing: each returns the
post-state together with an optional result (`none` = failure). -/

/-- The compressed size of a stored chunk: the bytes of all stored stream
payloads. -/
def chunk_cbytes (ch : Chunk) : Nat :=
  (ch.blocks.map (fun b => (b.map (fun st => st.payload.length)).sum)).sum

/-- Modelled from the spec (§3, §4.7): the super-chunk — bound parameters,
the stored chunks in append order, and the running totals. -/
structure SChunk where
  cparams : CParams
  split : Bool
  chunks : List Chunk
  nbytes : Nat
  cbytes : Nat

/-- Modelled from the spec (§4.7): `new(cparams, dparams)`. -/
def blosc2_new_schunk (p : CParams) (split : Bool) : SChunk :=
  ⟨p, split, [], 0, 0⟩

/-- Modelled from the spec (§4.7, §7): `append_chunk` — validate the bound
parameters (`InvalidParams` is surfaced immediately with no partial state),
compress the buffer into a chunk, append it, and update both running totals;
on failure the state is returned unchanged. -/
def blosc2_append_buffer (c : Codec) (sc : SChunk) (raw : List Nat) :
    SChunk × Option Nat :=
  if 1 ≤ sc.cparams.typesize ∧ 1 ≤ sc.cparams.blocksize then
    let ch := compress_chunk c sc.cparams sc.split raw
    ({ sc with
        chunks := sc.chunks ++ [ch],
        nbytes := sc.nbytes + raw.length,
        cbytes := sc.cbytes + chunk_cbytes ch }, some sc.chunks.length)
  else (sc, none)

/-- Modelled from the spec (§4.7): container-level `decompress_chunk` by
index; the super-chunk state is read, never mutated. -/
def blosc2_schunk_decompress_chunk (c : Codec) (sc : SChunk) (i : Nat) :
    SChunk × Option (List Nat) :=
  match sc.chunks[i]? with
  | none => (sc, none)
  | some ch => (sc, decompress_chunk c ch)

def total_uncompressed_bytes (sc : SChunk) : Nat := sc.nbytes

def total_compressed_bytes (sc : SChunk) : Nat := sc.cbytes

/-- The scanning definition of the uncompressed total: sum over stored chunks
of the appended raw length each records. -/
def scan_uncompressed_bytes (sc : SChunk) : Nat :=
  (sc.chunks.map Chunk.nbytes).sum

/-- The scanning definition of the compressed total: sum over stored chunks
of each chunk's compressed length. -/
def scan_compressed_bytes (sc : SChunk) : Nat :=
  (sc.chunks.map chunk_cbytes).sum

/-- The totals invariant: the incrementally maintained totals equal the sums
recomputed by scanning the stored chunks. -/
def TotalsInv (sc : SChunk) : Prop :=
  total_compressed_bytes sc = scan_compressed_bytes sc ∧
  total_uncompressed_bytes sc = scan_uncompressed_bytes sc

theorem totalsInv_new (p : CParams) (split : Bool) :
    TotalsInv (blosc2_new_schunk p split) := by
  constructor <;> rfl

theorem totalsInv_append (c : Codec) (sc : SChunk) (raw : List Nat)
    (h : TotalsInv sc) : TotalsInv (blosc2_append_buffer c sc raw).1 := by
  obtain ⟨h1, h2⟩ := h
  unfold blosc2_append_buffer
  split
  · refine ⟨?_, ?_⟩
    · simp only [total_compressed_bytes, scan_compressed_bytes] at h1 ⊢
      simp [h1]
    · simp only [total_uncompressed_bytes, scan_uncompressed_bytes] at h2 ⊢
      simp [h2, compress_chunk]
  · exact ⟨h1, h2⟩

theorem totalsInv_foldl (c : Codec) (appends : List (List Nat))
    (sc : SChunk) (h : TotalsInv sc) :
    TotalsInv (appends.foldl (fun s r => (blosc2_append_buffer c s r).1) sc) := by
  induction appends generalizing sc with
  | nil => exact h
  | cons a t ih => exact ih _ (totalsInv_append c sc a h)

/-- Claim C5: after any sequence of `append_chunk` calls starting from a
fresh super-chunk, `total_compressed_bytes` equals the sum of each stored
chunk's compressed length and `total_uncompressed_bytes` equals the sum of
the appended raw lengths, even though both totals are maintained
incrementally rather than recomputed by scanning. -/
theorem schunk_totals_after_appends (c : Codec) (p : CParams) (split : Bool)
    (appends : List (List Nat)) :
    total_compressed_bytes
        (appends.foldl (fun s r => (blosc2_append_buffer c s r).1)
          (blosc2_new_schunk p split)) =
      scan_compressed_bytes
        (appends.foldl (fun s r => (blosc2_append_buffer c s r).1)
          (blosc2_new_schunk p split)) ∧
    total_uncompressed_bytes
        (appends.foldl (fun s r => (blosc2_append_buffer c s r).1)
          (blosc2_new_schunk p split)) =
      scan_uncompressed_bytes
        (appends.foldl (fun s r => (blosc2_append_buffer c s r).1)
          (blosc2_new_schunk p split)) :=
  totalsInv_foldl c appends _ (totalsInv_new p split)

/-- Claim C6: atomicity of the container-level operations with respect to
the super-chunk metadata — an `append_chunk` call either fails with the
state unchanged, or fully succeeds: it returns the new chunk's index and the
post-state has both totals updated and the chunk appended; the container's
`decompress_chunk` never mutates the state. -/
theorem schunk_ops_atomic (c : Codec) (sc : SChunk) (raw : List Nat)
    (i : Nat) :
    ((blosc2_append_buffer c sc raw).2 = none →
        (blosc2_append_buffer c sc raw).1 = sc) ∧
    (∀ idx, (blosc2_append_buffer c sc raw).2 = some idx →
        idx = sc.chunks.length ∧
        (blosc2_append_buffer c sc raw).1.nbytes = sc.nbytes + raw.length ∧
        (blosc2_append_buffer c sc raw).1.cbytes =
          sc.cbytes + chunk_cbytes (compress_chunk c sc.cparams sc.split raw) ∧
        (blosc2_append_buffer c sc raw).1.chunks =
          sc.chunks ++ [compress_chunk c sc.cparams sc.split raw]) ∧
    (blosc2_schunk_decompress_chunk c sc i).1 = sc := by
  refine ⟨?_, ?_, ?_⟩
  · intro h
    unfold blosc2_append_buffer at h ⊢
    split at h
    · simp at h
    · rename_i hvalid
      simp [hvalid]
  · intro idx h
    unfold blosc2_append_buffer at h ⊢
    split at h
    · rename_i hvalid
      simp at h
      simp [hvalid, h]
    · simp at h
  · unfold blosc2_schunk_decompress_chunk
    cases sc.chunks[i]? <;> rfl

/-- Claim C6 witness: a successful append to a fresh super-chunk updates all
three metadata fields, and a failing append (invalid zero block size) leaves
the state untouched. -/
theorem schunk_ops_atomic_witness :
    ((blosc2_append_buffer noneCodec (blosc2_new_schunk ⟨1, 2, false⟩ false)
        [5, 6, 7]).2 = some 0 ∧
     (blosc2_append_buffer noneCodec (blosc2_new_schunk ⟨1, 2, false⟩ false)
        [5, 6, 7]).1.nbytes = 0 + 3) ∧
    ((blosc2_append_buffer noneCodec (blosc2_new_schunk ⟨1, 0, false⟩ false)
        [5, 6, 7]).2 = none ∧
     (blosc2_append_buffer noneCodec (blosc2_new_schunk ⟨1, 0, false⟩ false)
        [5, 6, 7]).1 = blosc2_new_schunk ⟨1, 0, false⟩ false) :=
  ⟨⟨by decide,
    by
      have h := ((schunk_ops_atomic noneCodec
        (blosc2_new_schunk ⟨1, 2, false⟩ false) [5, 6, 7] 0).2.1 0 (by decide)).2.1
      simpa using h⟩,
   ⟨by decide,
    (schunk_ops_atomic noneCodec (blosc2_new_schunk ⟨1, 0, false⟩ false)
        [5, 6, 7] 0).1 (by decide)⟩⟩

/-! ## Multi-threaded block decompressor

Modelled from the spec (§4.5, §5): blocks are assigned to worker lanes —
each lane a contiguous run of `nblocks / nthreads` whole blocks, the
remainder handled by lane 0, as in the benchmark driver — each lane produces
(block index, result) pairs, and reassembly is by block index, not lane
index. -/

/-- Modelled from the spec (§4.5): the block indices assigned to worker lane
`j`. -/
def laneIndices (nthreads nblocks j : Nat) : List Nat :=
  (List.range (nblocks / nthreads)).map (fun r => j * (nblocks / nthreads) + r) ++
  (if j = 0 then
     (List.range (nblocks - nblocks / nthreads * nthreads)).map
       (fun r => nblocks / nthreads * nthreads + r)
   else [])

/-- Every block index below `nblocks` is covered by some lane. -/
theorem mem_laneIndices_flatten (nthreads nblocks i : Nat)
    (hn : 0 < nthreads) (hi : i < nblocks) :
    i ∈ ((List.range nthreads).map (laneIndices nthreads nblocks)).flatten := by
  rw [List.mem_flatten]
  by_cases hcase : i < nblocks / nthreads * nthreads
  · have hqpos : 0 < nblocks / nthreads := by
      rcases Nat.eq_zero_or_pos (nblocks / nthreads) with h0 | h1
      · rw [h0] at hcase; omega
      · exact h1
    have hj : i / (nblocks / nthreads) < nthreads :=
      Nat.div_lt_of_lt_mul hcase
    refine ⟨laneIndices nthreads nblocks (i / (nblocks / nthreads)),
      List.mem_map_of_mem _ (List.mem_range.mpr hj), ?_⟩
    unfold laneIndices
    refine List.mem_append_left _ ?_
    refine List.mem_map.mpr
      ⟨i % (nblocks / nthreads),
       List.mem_range.mpr (Nat.mod_lt _ hqpos), ?_⟩
    rw [Nat.mul_comm]
    exact Nat.div_add_mod i (nblocks / nthreads)
  · refine ⟨laneIndices nthreads nblocks 0,
      List.mem_map_of_mem _ (List.mem_range.mpr hn), ?_⟩
    unfold laneIndices
    refine List.mem_append_right _ ?_
    rw [if_pos rfl]
    exact List.mem_map.mpr
      ⟨i - nblocks / nthreads * nthreads,
       List.mem_range.mpr (by omega), by omega⟩

/-- Looking up a key that is present in an association list all of whose
entries agree with `f` returns `f` of the key. -/
theorem lookup_eq_of_mem {β : Type} (f : Nat → β) :
    ∀ (pairs : List (Nat × β)), (∀ pr ∈ pairs, pr.2 = f pr.1) →
      ∀ i, i ∈ pairs.map Prod.fst → pairs.lookup i = some (f i) := by
  intro pairs
  induction pairs with
  | nil => intro _ i hi; simp at hi
  | cons hd t ih =>
      intro hall i hi
      obtain ⟨k, v⟩ := hd
      by_cases hik : i = k
      · have hv : v = f k := hall (k, v) (by simp)
        subst hik
        simp [List.lookup, hv]
      · have hit : i ∈ t.map Prod.fst := by
          rw [List.map_cons] at hi
          rcases List.mem_cons.mp hi with h1 | h2
          · exact absurd h1 hik
          · exact h2
        have hbeq : (i == k) = false := by
          simpa using hik
        simp only [List.lookup, hbeq]
        exact ih (fun pr hpr => hall pr (by simp [hpr])) i hit

theorem range_map_getD {α β : Type} (g : α → β) (l : List α) (d : α) :
    (List.range l.length).map (fun i => g (l.getD i d)) = l.map g := by
  apply List.ext_getElem
  · simp
  · intro j h1 h2
    simp only [List.getElem_map, List.getElem_range]
    rw [List.getD_eq_getElem l d (by simpa using h1)]

/-- One lane's output: (block index, per-block result) pairs for the lane's
assigned indices. -/
def laneOutputs (f : Nat → Option (List Nat)) (idxs : List Nat) :
    List (Nat × Option (List Nat)) :=
  idxs.map (fun i => (i, f i))

/-- Modelled from the spec (§4.5, §5): decompress a chunk with `nthreads`
worker lanes: each lane decompresses its assigned blocks, and the output is
reassembled by looking every block index up in the pooled lane outputs. -/
def decompress_chunk_mt (c : Codec) (nthreads : Nat) (ch : Chunk) :
    Option (List Nat) :=
  let nblocks := ch.blocks.length
  let f : Nat → Option (List Nat) :=
    fun i => decompressBlock c ch.params (ch.blocks.getD i [])
  let pairs := ((List.range nthreads).map
      (fun j => laneOutputs f (laneIndices nthreads nblocks j))).flatten
  match seqOpt ((List.range nblocks).map
      (fun i => (pairs.lookup i).getD none)) with
  | some parts => some parts.flatten
  | none => none

/-- For any positive lane count, the reassembled multi-threaded result equals
the serial block-order result. -/
theorem decompress_chunk_mt_canonical (c : Codec) (nthreads : Nat)
    (ch : Chunk) (hn : 1 ≤ nthreads) :
    decompress_chunk_mt c nthreads ch = decompress_chunk c ch := by
  simp only [decompress_chunk_mt, decompress_chunk]
  have hpairs : ∀ pr ∈ ((List.range nthreads).map
      (fun j => laneOutputs
        (fun i => decompressBlock c ch.params (ch.blocks.getD i []))
        (laneIndices nthreads ch.blocks.length j))).flatten,
      pr.2 = decompressBlock c ch.params (ch.blocks.getD pr.1 []) := by
    intro pr hpr
    rcases List.mem_flatten.mp hpr with ⟨lane, hlane, hprl⟩
    rcases List.mem_map.mp hlane with ⟨j, _, rfl⟩
    rcases List.mem_map.mp hprl with ⟨i, _, rfl⟩
    rfl
  have hkeys : ∀ i, i < ch.blocks.length →
      i ∈ (((List.range nthreads).map
        (fun j => laneOutputs
          (fun i => decompressBlock c ch.params (ch.blocks.getD i []))
          (laneIndices nthreads ch.blocks.length j))).flatten).map Prod.fst := by
    intro i hi
    have hm := mem_laneIndices_flatten nthreads ch.blocks.length i hn hi
    rcases List.mem_flatten.mp hm with ⟨lane, hlane, hil⟩
    rcases List.mem_map.mp hlane with ⟨j, hj, rfl⟩
    refine List.mem_map.mpr ⟨(i, decompressBlock c ch.params (ch.blocks.getD i [])), ?_, rfl⟩
    refine List.mem_flatten.mpr
      ⟨laneOutputs (fun i => decompressBlock c ch.params (ch.blocks.getD i []))
        (laneIndices nthreads ch.blocks.length j),
       List.mem_map_of_mem _ hj, ?_⟩
    exact List.mem_map.mpr ⟨i, hil, rfl⟩
  have harg : (List.range ch.blocks.length).map
      (fun i => ((((List.range nthreads).map
        (fun j => laneOutputs
          (fun i => decompressBlock c ch.params (ch.blocks.getD i []))
          (laneIndices nthreads ch.blocks.length j))).flatten).lookup i).getD none) =
      ch.blocks.map (decompressBlock c ch.params) := by
    rw [← range_map_getD (decompressBlock c ch.params) ch.blocks []]
    apply List.map_congr_left
    intro i hi
    rw [lookup_eq_of_mem
      (fun i => decompressBlock c ch.params (ch.blocks.getD i [])) _
      hpairs i (hkeys i (List.mem_range.mp hi))]
    rfl
  rw [harg]

/-- Claim C7: for a fixed chunk and fixed parameters, decompressing with any
positive thread count yields byte-identical output to thread count 1 (in
particular thread_count 8 equals thread_count 1): the reassembled result is
determined by block index alone, equal to the serial block-order result, and
independent of lane assignment. -/
theorem decompress_thread_count_equiv (c : Codec) (ch : Chunk)
    (nthreads : Nat) (h : 1 ≤ nthreads) :
    decompress_chunk_mt c nthreads ch = decompress_chunk_mt c 1 ch ∧
    decompress_chunk_mt c nthreads ch = decompress_chunk c ch := by
  have h1 := decompress_chunk_mt_canonical c nthreads ch h
  have h2 := decompress_chunk_mt_canonical c 1 ch (Nat.le_refl 1)
  exact ⟨h1.trans h2.symm, h1⟩

/-- Claim C7 witness: thread counts 8 and 1 on a concrete compressed chunk. -/
theorem decompress_thread_count_equiv_witness :
    1 ≤ 8 ∧
    decompress_chunk_mt noneCodec 8
        (compress_chunk noneCodec ⟨2, 3, true⟩ false [1, 2, 3, 4, 5, 6, 7]) =
      decompress_chunk_mt noneCodec 1
        (compress_chunk noneCodec ⟨2, 3, true⟩ false [1, 2, 3, 4, 5, 6, 7]) :=
  ⟨by decide,
   (decompress_thread_count_equiv noneCodec
      (compress_chunk noneCodec ⟨2, 3, true⟩ false [1, 2, 3, 4, 5, 6, 7])
      8 (by decide)).1⟩

end CBlosc2
